import Mathlib

/-!
Verification of the `EnterpriseEncryptionModule` (the authenticated
encryption-at-rest subsystem of the repository) against its
natural-language specification.

JavaScript strings are modelled as lists of UTF-16 code units
(`List Nat`); byte buffers (`Uint8Array`) as lists of naturals `≤ 255`.
Platform primitives that the module merely calls (`crypto.subtle`
AES-GCM, PBKDF2 key derivation, `TextEncoder`/`TextDecoder`) are
modelled abstractly as a `CryptoProvider` structure carrying exactly the
contracts those primitives guarantee; `btoa`/`atob` base64 conversion is
modelled concretely because the module's observable behaviour (notably
the compression layer's failure mode) depends on its details.
-/

/-- Code units of a Lean string literal, used to write concrete JS strings. -/
def strCodes (s : String) : List Nat := s.data.map Char.toNat

/-! ## Base64: model of the platform `btoa` / `atob` pair

`btoa` maps a sequence of Latin-1 code units (each `≤ 255`) to the RFC 4648
base64 alphabet with `=` padding, and throws `InvalidCharacterError` on any
unit above 255 (callers of `b64encode` below guard that condition
explicitly, as `btoa` escapes the module's try/catch blocks do).  `atob`
implements forgiving base64 decoding: it fails on characters outside the
alphabet or misplaced padding. -/

/-- Character (code unit) of the base64 alphabet for a sextet value. -/
def sextetChar (n : Nat) : Nat :=
  if n < 26 then 65 + n
  else if n < 52 then 97 + (n - 26)
  else if n < 62 then 48 + (n - 52)
  else if n = 62 then 43
  else 47

/-- Inverse alphabet lookup: `none` on characters outside the base64 alphabet
(including the padding character `=`, code 61). -/
def charSextet (c : Nat) : Option Nat :=
  if 65 ≤ c ∧ c ≤ 90 then some (c - 65)
  else if 97 ≤ c ∧ c ≤ 122 then some (26 + (c - 97))
  else if 48 ≤ c ∧ c ≤ 57 then some (52 + (c - 48))
  else if c = 43 then some 62
  else if c = 47 then some 63
  else none

/-- Base64-encode a byte list, three bytes to four characters, padded with
`=` (code 61) as in `btoa`. -/
def b64encode : List Nat → List Nat
  | [] => []
  | [a] => [sextetChar (a / 4), sextetChar (a % 4 * 16), 61, 61]
  | [a, b] =>
      [sextetChar (a / 4), sextetChar (a % 4 * 16 + b / 16), sextetChar (b % 16 * 4), 61]
  | a :: b :: c :: rest =>
      sextetChar (a / 4) :: sextetChar (a % 4 * 16 + b / 16) ::
        sextetChar (b % 16 * 4 + c / 64) :: sextetChar (c % 64) :: b64encode rest

/-- Decode a final two-character base64 group into one byte. -/
def b64group2 (c1 c2 : Nat) : Option (List Nat) :=
  match charSextet c1, charSextet c2 with
  | some s1, some s2 => some [s1 * 4 + s2 / 16]
  | _, _ => none

/-- Decode a final three-character base64 group into two bytes. -/
def b64group3 (c1 c2 c3 : Nat) : Option (List Nat) :=
  match charSextet c1, charSextet c2, charSextet c3 with
  | some s1, some s2, some s3 => some [s1 * 4 + s2 / 16, s2 % 16 * 16 + s3 / 4]
  | _, _, _ => none

/-- Decode a full four-character base64 group into three bytes. -/
def b64group4 (c1 c2 c3 c4 : Nat) : Option (List Nat) :=
  match charSextet c1, charSextet c2, charSextet c3, charSextet c4 with
  | some s1, some s2, some s3, some s4 =>
      some [s1 * 4 + s2 / 16, s2 % 16 * 16 + s3 / 4, s3 % 4 * 64 + s4]
  | _, _, _, _ => none

/-- Decode a final four-character group, honouring `=` padding (code 61). -/
def b64final4 (c1 c2 c3 c4 : Nat) : Option (List Nat) :=
  if c3 = 61 then (if c4 = 61 then b64group2 c1 c2 else none)
  else if c4 = 61 then b64group3 c1 c2 c3
  else b64group4 c1 c2 c3 c4

/-- Forgiving base64 decoding as performed by `atob`: `none` models the
`InvalidCharacterError` thrown on malformed input. -/
def b64decode : List Nat → Option (List Nat)
  | [] => some []
  | [c1, c2] => b64group2 c1 c2
  | [c1, c2, c3] => b64group3 c1 c2 c3
  | [c1, c2, c3, c4] => b64final4 c1 c2 c3 c4
  | c1 :: c2 :: c3 :: c4 :: rest =>
      match b64group4 c1 c2 c3 c4, b64decode rest with
      | some bs, some rest2 => some (bs ++ rest2)
      | _, _ => none
  | _ => none

theorem charSextet_sextetChar : ∀ s, s < 64 → charSextet (sextetChar s) = some s := by
  decide

theorem sextetChar_ne_61 (n : Nat) : sextetChar n ≠ 61 := by
  unfold sextetChar
  split <;> try omega
  split <;> try omega
  split <;> try omega
  split <;> omega

theorem sextetChar_le_122 (n : Nat) : sextetChar n ≤ 122 := by
  unfold sextetChar
  split <;> try omega
  split <;> try omega
  split <;> try omega
  split <;> omega

theorem charSextet_le (c s : Nat) (h : charSextet c = some s) : s ≤ 63 := by
  unfold charSextet at h
  split at h <;> try (simp_all; omega)
  split at h <;> try (simp_all; omega)
  split at h <;> try (simp_all; omega)
  split at h <;> try (simp_all; omega)
  split at h <;> simp_all

theorem b64group2_encode (a : Nat) (ha : a ≤ 255) :
    b64group2 (sextetChar (a / 4)) (sextetChar (a % 4 * 16)) = some [a] := by
  have h1 := charSextet_sextetChar (a / 4) (by omega)
  have h2 := charSextet_sextetChar (a % 4 * 16) (by omega)
  simp only [b64group2, h1, h2, Option.some.injEq, List.cons.injEq, and_true]
  omega

theorem b64group3_encode (a b : Nat) (ha : a ≤ 255) (hb : b ≤ 255) :
    b64group3 (sextetChar (a / 4)) (sextetChar (a % 4 * 16 + b / 16))
      (sextetChar (b % 16 * 4)) = some [a, b] := by
  have h1 := charSextet_sextetChar (a / 4) (by omega)
  have h2 := charSextet_sextetChar (a % 4 * 16 + b / 16) (by omega)
  have h3 := charSextet_sextetChar (b % 16 * 4) (by omega)
  simp only [b64group3, h1, h2, h3, Option.some.injEq, List.cons.injEq, and_true]
  omega

theorem b64group4_encode (a b c : Nat) (ha : a ≤ 255) (hb : b ≤ 255) (hc : c ≤ 255) :
    b64group4 (sextetChar (a / 4)) (sextetChar (a % 4 * 16 + b / 16))
      (sextetChar (b % 16 * 4 + c / 64)) (sextetChar (c % 64)) = some [a, b, c] := by
  have h1 := charSextet_sextetChar (a / 4) (by omega)
  have h2 := charSextet_sextetChar (a % 4 * 16 + b / 16) (by omega)
  have h3 := charSextet_sextetChar (b % 16 * 4 + c / 64) (by omega)
  have h4 := charSextet_sextetChar (c % 64) (by omega)
  simp only [b64group4, h1, h2, h3, h4, Option.some.injEq, List.cons.injEq, and_true]
  omega

/-- The encoding of a nonempty byte list starts with four explicit characters. -/
theorem b64encode_shape (l : List Nat) :
    b64encode l = [] ∧ l = [] ∨
      ∃ y1 y2 y3 y4 ys, b64encode l = y1 :: y2 :: y3 :: y4 :: ys := by
  match l with
  | [] => left; exact ⟨rfl, rfl⟩
  | [a] => right; exact ⟨_, _, _, _, _, rfl⟩
  | [a, b] => right; exact ⟨_, _, _, _, _, rfl⟩
  | a :: b :: c :: rest => right; exact ⟨_, _, _, _, _, rfl⟩

/-- Round-trip: decoding the base64 encoding of a byte list recovers it. -/
theorem b64decode_b64encode (l : List Nat) (h : ∀ b ∈ l, b ≤ 255) :
    b64decode (b64encode l) = some l := by
  induction l using b64encode.induct with
  | case1 => rfl
  | case2 a =>
      have ha : a ≤ 255 := h a (by simp)
      simp only [b64encode, b64decode, b64final4, if_pos rfl]
      exact b64group2_encode a ha
  | case3 a b =>
      have ha : a ≤ 255 := h a (by simp)
      have hb : b ≤ 255 := h b (by simp)
      simp only [b64encode, b64decode, b64final4,
        if_neg (sextetChar_ne_61 (b % 16 * 4)), if_pos rfl]
      exact b64group3_encode a b ha hb
  | case4 a b c rest ih =>
      have ha : a ≤ 255 := h a (by simp)
      have hb : b ≤ 255 := h b (by simp)
      have hc : c ≤ 255 := h c (by simp)
      have hrest : ∀ x ∈ rest, x ≤ 255 := fun x hx => h x (by simp [hx])
      have ihr := ih hrest
      rcases b64encode_shape rest with ⟨he, hr⟩ | ⟨y1, y2, y3, y4, ys, he⟩
      · subst hr
        simp only [b64encode, he, b64decode, b64final4,
          if_neg (sextetChar_ne_61 (b % 16 * 4 + c / 64)),
          if_neg (sextetChar_ne_61 (c % 64))]
        exact b64group4_encode a b c ha hb hc
      · rw [b64encode, he]
        rw [he] at ihr
        show (match b64group4 (sextetChar (a / 4)) (sextetChar (a % 4 * 16 + b / 16))
            (sextetChar (b % 16 * 4 + c / 64)) (sextetChar (c % 64)),
            b64decode (y1 :: y2 :: y3 :: y4 :: ys) with
          | some bs, some rest2 => some (bs ++ rest2)
          | _, _ => none) = some (a :: b :: c :: rest)
        rw [b64group4_encode a b c ha hb hc, ihr]
        rfl

theorem b64group2_le (c1 c2 : Nat) (bs : List Nat) (h : b64group2 c1 c2 = some bs) :
    ∀ b ∈ bs, b ≤ 255 := by
  unfold b64group2 at h
  split at h
  case h_1 s1 s2 hs1 hs2 =>
    have l1 := charSextet_le _ _ hs1
    have l2 := charSextet_le _ _ hs2
    simp only [Option.some.injEq] at h
    subst h
    intro b hb
    simp only [List.mem_singleton] at hb
    omega
  case h_2 => exact absurd h (by simp)

theorem b64group3_le (c1 c2 c3 : Nat) (bs : List Nat) (h : b64group3 c1 c2 c3 = some bs) :
    ∀ b ∈ bs, b ≤ 255 := by
  unfold b64group3 at h
  split at h
  case h_1 s1 s2 s3 hs1 hs2 hs3 =>
    have l1 := charSextet_le _ _ hs1
    have l2 := charSextet_le _ _ hs2
    have l3 := charSextet_le _ _ hs3
    simp only [Option.some.injEq] at h
    subst h
    intro b hb
    simp only [List.mem_cons, List.mem_singleton, List.not_mem_nil, or_false] at hb
    rcases hb with hb | hb <;> omega
  case h_2 => exact absurd h (by simp)

theorem b64group4_le (c1 c2 c3 c4 : Nat) (bs : List Nat) (h : b64group4 c1 c2 c3 c4 = some bs) :
    ∀ b ∈ bs, b ≤ 255 := by
  unfold b64group4 at h
  split at h
  case h_1 s1 s2 s3 s4 hs1 hs2 hs3 hs4 =>
    have l1 := charSextet_le _ _ hs1
    have l2 := charSextet_le _ _ hs2
    have l3 := charSextet_le _ _ hs3
    have l4 := charSextet_le _ _ hs4
    simp only [Option.some.injEq] at h
    subst h
    intro b hb
    simp only [List.mem_cons, List.mem_singleton, List.not_mem_nil, or_false] at hb
    rcases hb with hb | hb | hb <;> omega
  case h_2 => exact absurd h (by simp)

theorem b64final4_le (c1 c2 c3 c4 : Nat) (bs : List Nat) (h : b64final4 c1 c2 c3 c4 = some bs) :
    ∀ b ∈ bs, b ≤ 255 := by
  unfold b64final4 at h
  split at h
  · split at h
    · exact b64group2_le c1 c2 bs h
    · exact absurd h (by simp)
  · split at h
    · exact b64group3_le c1 c2 c3 bs h
    · exact b64group4_le c1 c2 c3 c4 bs h

theorem b64decode_bytes_aux (n : Nat) :
    ∀ l bs : List Nat, l.length ≤ n → b64decode l = some bs → ∀ b ∈ bs, b ≤ 255 := by
  induction n with
  | zero =>
      intro l bs hlen h
      match l with
      | [] =>
          simp only [b64decode, Option.some.injEq] at h
          subst h; intro b hb; cases hb
  | succ n ih =>
      intro l bs hlen h
      match l with
      | [] =>
          simp only [b64decode, Option.some.injEq] at h
          subst h; intro b hb; cases hb
      | [c1] => exact absurd h (by simp [b64decode])
      | [c1, c2] => exact b64group2_le c1 c2 bs h
      | [c1, c2, c3] => exact b64group3_le c1 c2 c3 bs h
      | [c1, c2, c3, c4] => exact b64final4_le c1 c2 c3 c4 bs h
      | c1 :: c2 :: c3 :: c4 :: c5 :: rt =>
          have hd : b64decode (c1 :: c2 :: c3 :: c4 :: c5 :: rt) =
              match b64group4 c1 c2 c3 c4, b64decode (c5 :: rt) with
              | some g, some rest2 => some (g ++ rest2)
              | _, _ => none := rfl
          rw [hd] at h
          split at h
          case h_1 g r hg hr =>
            simp only [Option.some.injEq] at h
            subst h
            intro b hb
            rcases List.mem_append.mp hb with hb | hb
            · exact b64group4_le c1 c2 c3 c4 g hg b hb
            · have hlt : (c5 :: rt).length ≤ n := by
                simp only [List.length_cons] at hlen ⊢
                omega
              exact ih (c5 :: rt) r hlt hr b hb
          case h_2 => exact absurd h (by simp)

/-- Every byte produced by `atob` is in the 0–255 range: base64 decoding can
never produce a code unit at or above 256. -/
theorem b64decode_bytes (l bs : List Nat) (h : b64decode l = some bs) :
    ∀ b ∈ bs, b ≤ 255 :=
  b64decode_bytes_aux l.length l bs (le_refl _) h

/-- The base64 encoder is injective on byte lists. -/
theorem b64encode_inj (l1 l2 : List Nat) (h1 : ∀ b ∈ l1, b ≤ 255)
    (h2 : ∀ b ∈ l2, b ≤ 255) (he : b64encode l1 = b64encode l2) : l1 = l2 := by
  have r1 := b64decode_b64encode l1 h1
  have r2 := b64decode_b64encode l2 h2
  rw [he, r2] at r1
  exact (Option.some.inj r1).symm

/-! ## Platform cryptography: model of `crypto.subtle` and `TextEncoder`

The module calls four opaque platform primitives: AES-256-GCM encryption
(returning `ciphertext ‖ 16-byte tag`), AES-256-GCM decryption (which fails
on any authentication mismatch), PBKDF2 key derivation, and the
`TextEncoder`/`TextDecoder` string–byte codec.  They are modelled as an
abstract structure carrying exactly the contracts the platform guarantees,
so every theorem below holds for any conforming provider. -/

structure CryptoProvider where
  /-- `crypto.subtle.encrypt` with AES-GCM: key handle, 12-byte IV, plaintext
  bytes, returning ciphertext with the 16-byte tag appended. -/
  gcmEncrypt : Nat → List Nat → List Nat → List Nat
  /-- `crypto.subtle.decrypt` with AES-GCM: `none` models the `OperationError`
  thrown when tag verification fails. -/
  gcmDecrypt : Nat → List Nat → List Nat → Option (List Nat)
  /-- PBKDF2-SHA-256 key derivation from password and salt to an opaque
  non-extractable key handle. -/
  deriveKey : List Nat → List Nat → Nat
  /-- `TextEncoder.encode`: strings (code-unit sequences) to bytes. -/
  textEncode : List Nat → List Nat
  /-- `TextDecoder.decode`: bytes back to a string. -/
  textDecode : List Nat → List Nat
  /-- GCM output is the ciphertext (as long as the plaintext) plus a 16-byte tag. -/
  gcmEncrypt_length : ∀ k iv p, (gcmEncrypt k iv p).length = p.length + 16
  /-- GCM output is a byte sequence. -/
  gcmEncrypt_bytes : ∀ k iv p, (∀ b ∈ p, b ≤ 255) → ∀ b ∈ gcmEncrypt k iv p, b ≤ 255
  /-- Decrypting with the key and IV used to encrypt recovers the plaintext. -/
  gcmDecrypt_gcmEncrypt : ∀ k iv p, gcmDecrypt k iv (gcmEncrypt k iv p) = some p
  /-- The text encoder produces bytes. -/
  textEncode_bytes : ∀ s, ∀ b ∈ textEncode s, b ≤ 255
  /-- Decoding the encoding of a well-formed string recovers it. -/
  textDecode_textEncode : ∀ s, (∀ u ∈ s, u < 65536) → textDecode (textEncode s) = s

/-! ## JavaScript values and JSON

`encrypt` serializes its argument with
`typeof data === "object" ? JSON.stringify(data) : String(data)` and
`decrypt` finishes with `JSON.parse`, falling back to the raw string when
parsing fails.  JS values are modelled by `JSValue`; the platform `JSON`
object is modelled by a serializer and a recursive-descent parser over code
units (numbers are modelled as integers; floating-point literals are the one
unmodelled corner, and no claim below exercises them). -/

inductive JSValue where
  | null : JSValue
  | bool : Bool → JSValue
  | num : Int → JSValue
  | str : List Nat → JSValue
  | arr : List JSValue → JSValue
  | obj : List (List Nat × JSValue) → JSValue

/-- Decimal digits of a natural number, as code units. -/
def natStr (n : Nat) : List Nat := (Nat.toDigits 10 n).map Char.toNat

/-- `String(i)` / `JSON.stringify(i)` for an integer: decimal form with a
leading `-` (code 45) when negative. -/
def intToStr (i : Int) : List Nat :=
  if i < 0 then 45 :: natStr i.natAbs else natStr i.natAbs

/-- Lower-case hexadecimal digit character. -/
def hexChar (n : Nat) : Nat := if n < 10 then 48 + n else 97 + (n - 10)

/-- JSON string escaping for one code unit (quote, backslash, and control
characters; everything else passes through). -/
def escapeChar (c : Nat) : List Nat :=
  if c = 34 then [92, 34]
  else if c = 92 then [92, 92]
  else if c = 8 then [92, 98]
  else if c = 9 then [92, 116]
  else if c = 10 then [92, 110]
  else if c = 12 then [92, 102]
  else if c = 13 then [92, 114]
  else if c < 32 then [92, 117, 48, 48, hexChar (c / 16), hexChar (c % 16)]
  else [c]

/-- A JSON string literal: quoted and escaped. -/
def quoteStr (s : List Nat) : List Nat := 34 :: (s.flatMap escapeChar ++ [34])

mutual

/-- Model of `JSON.stringify` on JS values (integer numbers; `undefined` and
floating-point values do not occur in the module's data). -/
def jsonStringify : JSValue → List Nat
  | .null => strCodes "null"
  | .bool true => strCodes "true"
  | .bool false => strCodes "false"
  | .num i => intToStr i
  | .str s => quoteStr s
  | .arr l => [91] ++ List.intercalate [44] (stringifyElems l) ++ [93]
  | .obj l => [123] ++ List.intercalate [44] (stringifyProps l) ++ [125]

/-- Serialized forms of the elements of a JSON array. -/
def stringifyElems : List JSValue → List (List Nat)
  | [] => []
  | v :: vs => jsonStringify v :: stringifyElems vs

/-- Serialized `"key":value` members of a JSON object. -/
def stringifyProps : List (List Nat × JSValue) → List (List Nat)
  | [] => []
  | (k, v) :: ms => (quoteStr k ++ [58] ++ jsonStringify v) :: stringifyProps ms

end

/-- The serialization step of `encrypt`:
`typeof data === "object" ? JSON.stringify(data) : String(data)`.
In JS, `typeof` is `"object"` exactly for `null`, arrays and objects. -/
def jsToString : JSValue → List Nat
  | .str s => s
  | .num i => intToStr i
  | .bool true => strCodes "true"
  | .bool false => strCodes "false"
  | .null => jsonStringify .null
  | .arr l => jsonStringify (.arr l)
  | .obj l => jsonStringify (.obj l)

/-- JSON whitespace (space, tab, line feed, carriage return). -/
def isWsChar (c : Nat) : Bool := c == 32 || c == 9 || c == 10 || c == 13

/-- Skip leading JSON whitespace. -/
def skipWs (l : List Nat) : List Nat := l.dropWhile isWsChar

/-- Value of a hexadecimal digit character. -/
def hexVal (c : Nat) : Option Nat :=
  if 48 ≤ c ∧ c ≤ 57 then some (c - 48)
  else if 97 ≤ c ∧ c ≤ 102 then some (c - 87)
  else if 65 ≤ c ∧ c ≤ 70 then some (c - 55)
  else none

/-- Single-character JSON string escapes. -/
def escCode (e : Nat) : Option Nat :=
  if e = 34 then some 34
  else if e = 92 then some 92
  else if e = 47 then some 47
  else if e = 98 then some 8
  else if e = 102 then some 12
  else if e = 110 then some 10
  else if e = 114 then some 13
  else if e = 116 then some 9
  else none

/-- Parse the body of a JSON string literal (after the opening quote), up to
and including the closing quote; raw control characters are rejected. -/
def parseStrChars : List Nat → Option (List Nat × List Nat)
  | [] => none
  | 34 :: rest => some ([], rest)
  | 92 :: 117 :: h1 :: h2 :: h3 :: h4 :: rest =>
      match hexVal h1, hexVal h2, hexVal h3, hexVal h4, parseStrChars rest with
      | some v1, some v2, some v3, some v4, some (s, r) =>
          some ((v1 * 4096 + v2 * 256 + v3 * 16 + v4) :: s, r)
      | _, _, _, _, _ => none
  | 92 :: e :: rest =>
      match escCode e, parseStrChars rest with
      | some c, some (s, r) => some (c :: s, r)
      | _, _ => none
  | c :: rest =>
      if c < 32 then none
      else
        match parseStrChars rest with
        | some (s, r) => some (c :: s, r)
        | none => none

/-- ASCII decimal digit test. -/
def isDigitChar (c : Nat) : Bool := 48 ≤ c && c ≤ 57

/-- Numeric value of a list of decimal digit characters. -/
def digitsVal (ds : List Nat) : Nat := ds.foldl (fun a d => a * 10 + (d - 48)) 0

/-- Parse a JSON natural-number token: `0`, or a nonzero digit followed by
digits (the JSON grammar forbids leading zeros). -/
def parseNat : List Nat → Option (Nat × List Nat)
  | [] => none
  | c :: rest =>
      if c = 48 then some (0, rest)
      else if 49 ≤ c ∧ c ≤ 57 then
        some (digitsVal (c :: rest.takeWhile isDigitChar), rest.dropWhile isDigitChar)
      else none

mutual

/-- Recursive-descent parser for one JSON value (fuel-indexed to bound the
nesting depth); returns the value and the unconsumed tail. -/
def parseValue : Nat → List Nat → Option (JSValue × List Nat)
  | 0, _ => none
  | fuel + 1, l =>
      match skipWs l with
      | 110 :: 117 :: 108 :: 108 :: rest => some (.null, rest)
      | 116 :: 114 :: 117 :: 101 :: rest => some (.bool true, rest)
      | 102 :: 97 :: 108 :: 115 :: 101 :: rest => some (.bool false, rest)
      | 34 :: rest =>
          match parseStrChars rest with
          | some (s, r) => some (.str s, r)
          | none => none
      | 91 :: rest =>
          match skipWs rest with
          | 93 :: r => some (.arr [], r)
          | _ =>
              match parseElems fuel rest with
              | some (vs, r) => some (.arr vs, r)
              | none => none
      | 123 :: rest =>
          match skipWs rest with
          | 125 :: r => some (.obj [], r)
          | _ =>
              match parseMembers fuel rest with
              | some (ms, r) => some (.obj ms, r)
              | none => none
      | 45 :: rest =>
          match parseNat rest with
          | some (n, r) => some (.num (-(n : Int)), r)
          | none => none
      | l2 =>
          match parseNat l2 with
          | some (n, r) => some (.num (n : Int), r)
          | none => none

/-- Parse the comma-separated elements of a nonempty JSON array, up to and
including the closing bracket. -/
def parseElems : Nat → List Nat → Option (List JSValue × List Nat)
  | 0, _ => none
  | fuel + 1, l =>
      match parseValue fuel l with
      | some (v, r) =>
          match skipWs r with
          | 44 :: r2 =>
              match parseElems fuel r2 with
              | some (vs, r3) => some (v :: vs, r3)
              | none => none
          | 93 :: r2 => some ([v], r2)
          | _ => none
      | none => none

/-- Parse the comma-separated members of a nonempty JSON object, up to and
including the closing brace. -/
def parseMembers : Nat → List Nat → Option (List (List Nat × JSValue) × List Nat)
  | 0, _ => none
  | fuel + 1, l =>
      match skipWs l with
      | 34 :: r =>
          match parseStrChars r with
          | some (k, r1) =>
              match skipWs r1 with
              | 58 :: r2 =>
                  match parseValue fuel r2 with
                  | some (v, r3) =>
                      match skipWs r3 with
                      | 44 :: r4 =>
                          match parseMembers fuel r4 with
                          | some (ms, r5) => some ((k, v) :: ms, r5)
                          | none => none
                      | 125 :: r4 => some ([(k, v)], r4)
                      | _ => none
                  | none => none
              | _ => none
          | none => none
      | _ => none

end

/-- Model of `JSON.parse`: parse one value and require only trailing
whitespace (throwing, i.e. `none`, otherwise). -/
def jsonParse (s : List Nat) : Option JSValue :=
  match parseValue (s.length + 1) s with
  | some (v, rest) => if (skipWs rest).isEmpty then some v else none
  | none => none

/-! ## Engine state

The module's mutable environment: its own `isInitialized` / `masterKey`
fields, the browser's `localStorage` (an association list of string keys to
string values), and the platform random source `crypto.getRandomValues`,
modelled as an infinite byte stream `rng` with a read position. -/

/-- The browser `localStorage`: string keys mapped to string values. -/
def Storage : Type := List (List Nat × List Nat)

/-- `localStorage.getItem` (``null`` becomes `none`). -/
def getItem (k : List Nat) (s : Storage) : Option (List Nat) :=
  (s.find? (fun e => e.1 == k)).map (fun e => e.2)

/-- `localStorage.setItem`: overwrite any previous value for the key. -/
def setItem (k v : List Nat) (s : Storage) : Storage :=
  (k, v) :: s.filter (fun e => e.1 != k)

/-- State of one `EnterpriseEncryptionModule` instance plus its environment. -/
structure EngineState where
  isInitialized : Bool
  masterKey : Option Nat
  storage : Storage
  rng : Nat → Nat
  rngPos : Nat

/-- `crypto.getRandomValues` on a fresh `Uint8Array(n)`: the next `n` bytes
of the random stream, advancing the read position. -/
def randBytes (n : Nat) (st : EngineState) : List Nat × EngineState :=
  ((List.range n).map (fun i => st.rng (st.rngPos + i) % 256),
   { st with rngPos := st.rngPos + n })

/-- `generateIV`: 12 fresh random bytes (`this.ivLength = 12`). -/
def generateIV (st : EngineState) : List Nat × EngineState := randBytes 12 st

/-- `generateSalt`: 32 fresh random bytes (`this.saltLength = 32`),
base64-encoded via `arrayBufferToBase64`. -/
def generateSalt (st : EngineState) : List Nat × EngineState :=
  let r := randBytes 32 st
  (b64encode r.1, r.2)

/-- The fixed `localStorage` key `"enc_salt"` holding the persisted salt. -/
def encSaltKey : List Nat := strCodes "enc_salt"

/-- The namespaced `localStorage` key `"sec_" + key` of the secure store. -/
def secItemKey (k : List Nat) : List Nat := strCodes "sec_" ++ k

/-- Exceptions thrown by the module or the platform primitives it calls. -/
inductive JsError where
  | notInitialized
  | typeError
  | invalidCharacter
  | malformedBase64
  | operationError
deriving DecidableEq

/-! ## The compression pass (`compress` / `decompress`)

`compress` is an LZW-style encoder: dictionary codes start at 256, the
emitted code sequence is passed through `String.fromCharCode` (which
truncates each value to 16 bits) and then `btoa` — which throws
`InvalidCharacterError` on any unit above 255.  `decompress` wraps its whole
body in `try/catch` and returns its input unchanged if anything throws. -/

/-- One emitted code: `phrase.length > 1 ? dict[phrase] : phrase.charCodeAt(0)`
(an absent dictionary entry is `undefined`, which `String.fromCharCode`
turns into code unit 0). -/
def lzEmit (dict : List (List Nat × Nat)) (phrase : List Nat) : Nat :=
  if phrase.length > 1 then ((dict.find? (fun e => e.1 == phrase)).map (fun e => e.2)).getD 0
  else phrase.headD 0

/-- Accumulator of the encoder loop in `compress`. -/
structure LzState where
  dict : List (List Nat × Nat)
  output : List Nat
  phrase : List Nat
  code : Nat

/-- One iteration of the `compress` loop over the input characters. -/
def lzStep (s : LzState) (currChar : Nat) : LzState :=
  let combined := s.phrase ++ [currChar]
  if (s.dict.find? (fun e => e.1 == combined)).isSome then
    { s with phrase := combined }
  else
    { dict := (combined, s.code) :: s.dict,
      output := s.output ++ [lzEmit s.dict s.phrase],
      phrase := [currChar],
      code := s.code + 1 }

/-- The code-unit sequence handed by `compress` to `btoa`: run the encoder
loop over the input tail, append the final emission, and truncate each code
to 16 bits as `String.fromCharCode` does. -/
def compressUnits (d0 : Nat) (rest : List Nat) : List Nat :=
  let sF := rest.foldl lzStep { dict := [], output := [], phrase := [d0], code := 256 }
  (sF.output ++ [lzEmit sF.dict sF.phrase]).map (· % 65536)

/-- `EnterpriseEncryptionModule.compress`.  On empty input `data[0]` is
`undefined` and `phrase.length` throws a `TypeError`; an emitted code unit
above 255 makes `btoa` throw `InvalidCharacterError`. -/
def compress (data : List Nat) : Except JsError (List Nat) :=
  match data with
  | [] => .error .typeError
  | d0 :: rest =>
      if (compressUnits d0 rest).all (· ≤ 255) then .ok (b64encode (compressUnits d0 rest))
      else .error .invalidCharacter

/-- Accumulator of the decoder loop in `decompress`. -/
structure LzdState where
  dict : List (Nat × List Nat)
  code : Nat
  phrase : List Nat
  output : List (List Nat)

/-- One iteration of the `decompress` loop over the decoded code stream.
The JS guard `if (dict[currCode])` tests truthiness; dictionary values are
always nonempty strings, so it coincides with presence. -/
def lzdStep (s : LzdState) (currCode : Nat) : LzdState :=
  let entry :=
    match (s.dict.find? (fun e => e.1 == currCode)).map (fun e => e.2) with
    | some e => e
    | none => if currCode = s.code then s.phrase ++ [s.phrase.headD 0] else [currCode % 65536]
  { dict := (s.code, s.phrase ++ [entry.headD 0]) :: s.dict,
    code := s.code + 1,
    phrase := entry,
    output := s.output ++ [entry] }

/-- `EnterpriseEncryptionModule.decompress`.  The whole body sits in a
`try/catch` whose handler returns the input unchanged, so a failed `atob`
(`none`) yields the input itself; nothing else in the body can throw. -/
def decompress (compressed : List Nat) : List Nat :=
  match b64decode compressed with
  | none => compressed
  | some codes =>
      let phrase0 := [codes.headD 0]
      let sF := (codes.drop 1).foldl lzdStep
        { dict := [], code := 256, phrase := phrase0, output := [phrase0] }
      sF.output.flatten

/-! ## The module operations -/

/-- `EnterpriseEncryptionModule.initialize` (modelled under the name
`initModule`): load the salt from `localStorage` — regenerating and
persisting it first when the stored value is falsy (absent or empty) — then
derive the master key from password and salt and mark the engine ready. -/
def initModule (P : CryptoProvider) (st : EngineState) (masterPassword : List Nat) :
    Bool × EngineState :=
  match getItem encSaltKey st.storage with
  | some (c :: cs) =>
      (true, { st with
          masterKey := some (P.deriveKey masterPassword (c :: cs)),
          isInitialized := true })
  | _ =>
      let r := generateSalt st
      let st3 := { r.2 with storage := setItem encSaltKey r.1 r.2.storage }
      (true, { st3 with
          masterKey := some (P.deriveKey masterPassword r.1),
          isInitialized := true })

/-- `EnterpriseEncryptionModule.encrypt`: serialize, optionally compress,
draw a fresh 12-byte IV, AES-GCM-encrypt, and base64-encode
`iv ‖ ciphertext ‖ tag`.  Throws when not initialized; rethrows any failure
of the compression pass (nothing after it can throw: `arrayBufferToBase64`
receives genuine bytes). -/
def encrypt (P : CryptoProvider) (st : EngineState) (data : JSValue) (compressFlag : Bool) :
    Except JsError (List Nat) × EngineState :=
  if st.isInitialized then
    match (if compressFlag then compress (jsToString data) else .ok (jsToString data)) with
    | .error e => (.error e, st)
    | .ok processedData =>
        let r := generateIV st
        let encryptedBuffer := P.gcmEncrypt (st.masterKey.getD 0) r.1 (P.textEncode processedData)
        (.ok (b64encode (r.1 ++ encryptedBuffer)), r.2)
  else (.error .notInitialized, st)

/-- The tail of `decrypt`: try to parse as JSON, otherwise return the raw
string. -/
def jsonFallback (s : List Nat) : Except JsError JSValue :=
  match jsonParse s with
  | some v => .ok v
  | none => .ok (.str s)

/-- `EnterpriseEncryptionModule.decrypt`: base64-decode, split the buffer at
the fixed 12-byte IV offset, AES-GCM-decrypt (authentication failure
throws), optionally decompress, then `JSON.parse` with fallback to the raw
string. -/
def decrypt (P : CryptoProvider) (st : EngineState) (encryptedData : List Nat)
    (decompressFlag : Bool) : Except JsError JSValue × EngineState :=
  if st.isInitialized then
    match b64decode encryptedData with
    | none => (.error .malformedBase64, st)
    | some combined =>
        match P.gcmDecrypt (st.masterKey.getD 0) (combined.take 12) (combined.drop 12) with
        | none => (.error .operationError, st)
        | some decryptedBuffer =>
            let decryptedData := P.textDecode decryptedBuffer
            (jsonFallback (if decompressFlag then decompress decryptedData else decryptedData), st)
  else (.error .notInitialized, st)

/-- `EnterpriseEncryptionModule.secureStore`: encrypt (always with
compression enabled) and store the bare envelope string under
`"sec_" + key`; any error is caught and reported as `false`. -/
def secureStore (P : CryptoProvider) (st : EngineState) (key : List Nat) (value : JSValue) :
    Bool × EngineState :=
  match encrypt P st value true with
  | (.ok encrypted, st2) =>
      (true, { st2 with storage := setItem (secItemKey key) encrypted st2.storage })
  | (.error _, st2) => (false, st2)

/-- `EnterpriseEncryptionModule.secureRetrieve`: return `null` when the slot
is falsy (absent or empty), otherwise decrypt (always with decompression
enabled); any error is caught and `null` returned. -/
def secureRetrieve (P : CryptoProvider) (st : EngineState) (key : List Nat) :
    JSValue × EngineState :=
  match getItem (secItemKey key) st.storage with
  | some (c :: cs) =>
      match decrypt P st (c :: cs) true with
      | (.ok v, st2) => (v, st2)
      | (.error _, st2) => (.null, st2)
  | _ => (.null, st)

/-! ## A concrete conforming provider

Used to instantiate the abstract `CryptoProvider` contract in witnesses and
counterexamples: a stand-in cipher that appends a 16-byte all-zero tag and
verifies it on decryption, together with a two-byte-per-code-unit text
codec.  It satisfies every contract field, so any theorem stated over an
arbitrary provider applies to it. -/

/-- Inverse of the reference text codec: fold byte pairs back into units. -/
def u16decode : List Nat → List Nat
  | b1 :: b2 :: rest => (b1 * 256 + b2) :: u16decode rest
  | _ => []

theorem u16decode_roundtrip (s : List Nat) (h : ∀ u ∈ s, u < 65536) :
    u16decode (s.flatMap (fun u => [u / 256 % 256, u % 256])) = s := by
  induction s with
  | nil => rfl
  | cons u rest ih =>
      have hu : u < 65536 := h u (by simp)
      have hr : ∀ x ∈ rest, x < 65536 := fun x hx => h x (by simp [hx])
      have he : (u :: rest).flatMap (fun u => [u / 256 % 256, u % 256]) =
          (u / 256 % 256) :: (u % 256) :: rest.flatMap (fun u => [u / 256 % 256, u % 256]) := rfl
      rw [he]
      have hd : u16decode ((u / 256 % 256) :: (u % 256) ::
          rest.flatMap (fun u => [u / 256 % 256, u % 256])) =
          ((u / 256 % 256) * 256 + u % 256) ::
            u16decode (rest.flatMap (fun u => [u / 256 % 256, u % 256])) := rfl
      rw [hd, ih hr]
      congr 1
      omega

/-- Reference cipher: append a 16-byte all-zero tag. -/
def refGcmEnc (p : List Nat) : List Nat := p ++ List.replicate 16 0

/-- Reference decipher: check and strip the 16-byte all-zero tag. -/
def refGcmDec (c : List Nat) : Option (List Nat) :=
  if 16 ≤ c.length ∧ c.drop (c.length - 16) = List.replicate 16 0 then
    some (c.take (c.length - 16))
  else none

/-- Reference text codec: two bytes per code unit. -/
def u16encode (s : List Nat) : List Nat := s.flatMap (fun u => [u / 256 % 256, u % 256])

theorem refGcmDec_refGcmEnc (p : List Nat) : refGcmDec (refGcmEnc p) = some p := by
  unfold refGcmDec refGcmEnc
  have h1 : (p ++ List.replicate 16 (0 : Nat)).length - 16 = p.length := by simp
  rw [if_pos]
  · rw [h1]
    exact congrArg some (List.take_left p (List.replicate 16 0))
  · constructor
    · simp
    · rw [h1]
      exact List.drop_left p (List.replicate 16 0)

def refProvider : CryptoProvider :=
  { gcmEncrypt := fun _ _ p => refGcmEnc p,
    gcmDecrypt := fun _ _ c => refGcmDec c,
    deriveKey := fun pw salt => (pw ++ salt).length,
    textEncode := u16encode,
    textDecode := u16decode,
    gcmEncrypt_length := by
      intro k iv p
      simp [refGcmEnc],
    gcmEncrypt_bytes := by
      intro k iv p hp b hb
      rcases List.mem_append.mp hb with h | h
      · exact hp b h
      · have := List.eq_of_mem_replicate h
        omega,
    gcmDecrypt_gcmEncrypt := fun _ _ p => refGcmDec_refGcmEnc p,
    textEncode_bytes := by
      intro s b hb
      rcases List.mem_flatMap.mp hb with ⟨u, _, hu⟩
      simp only [List.mem_cons, List.mem_singleton, List.not_mem_nil, or_false] at hu
      rcases hu with hu | hu <;> omega,
    textDecode_textEncode := u16decode_roundtrip }

/-- A ready (initialized) engine over empty storage, with the zero stream as
random source. -/
def testState : EngineState :=
  { isInitialized := true, masterKey := some 0, storage := [],
    rng := fun _ => 0, rngPos := 0 }

/-- A ready engine whose random stream is the identity, so successive draws
differ. -/
def countState : EngineState :=
  { isInitialized := true, masterKey := some 0, storage := [],
    rng := fun i => i, rngPos := 0 }

/-- A freshly constructed engine: not initialized, no key. -/
def freshState : EngineState :=
  { isInitialized := false, masterKey := none, storage := [],
    rng := fun _ => 0, rngPos := 0 }

deriving instance DecidableEq for Except

/-! ## Behavioural lemmas -/

theorem randBytes_length (n : Nat) (st : EngineState) : (randBytes n st).1.length = n := by
  simp [randBytes]

theorem randBytes_bytes (n : Nat) (st : EngineState) : ∀ b ∈ (randBytes n st).1, b ≤ 255 := by
  intro b hb
  simp only [randBytes, List.mem_map] at hb
  rcases hb with ⟨i, _, hi⟩
  omega

/-- Every character of a base64 encoding is at most `z` (code 122). -/
theorem b64encode_le_122 (l : List Nat) : ∀ x ∈ b64encode l, x ≤ 122 := by
  induction l using b64encode.induct with
  | case1 => intro x hx; cases hx
  | case2 a =>
      intro x hx
      simp only [b64encode, List.mem_cons, List.mem_singleton, List.not_mem_nil, or_false] at hx
      rcases hx with h | h | h | h <;> subst h <;> first | exact sextetChar_le_122 _ | omega
  | case3 a b =>
      intro x hx
      simp only [b64encode, List.mem_cons, List.mem_singleton, List.not_mem_nil, or_false] at hx
      rcases hx with h | h | h | h <;> subst h <;> first | exact sextetChar_le_122 _ | omega
  | case4 a b c rest ih =>
      intro x hx
      simp only [b64encode, List.mem_cons] at hx
      rcases hx with h | h | h | h | h
      · subst h; exact sextetChar_le_122 _
      · subst h; exact sextetChar_le_122 _
      · subst h; exact sextetChar_le_122 _
      · subst h; exact sextetChar_le_122 _
      · exact ih x h

theorem flatten_singletons (l : List Nat) : (l.map (fun c => [c])).flatten = l := by
  induction l with
  | nil => rfl
  | cons c cs ih => simp [ih]

/-- Folding the `decompress` loop over a byte-range code stream only ever
takes the literal branch: dictionary keys start at 256 and the running code
counter stays at or above 256, so each code at most 255 is emitted as the
corresponding one-character string. -/
theorem lzd_literal (rest : List Nat) :
    ∀ (s : LzdState), (∀ b ∈ rest, b ≤ 255) → (∀ e ∈ s.dict, 256 ≤ e.1) → 256 ≤ s.code →
      (rest.foldl lzdStep s).output = s.output ++ rest.map (fun c => [c]) := by
  induction rest with
  | nil => intro s _ _ _; simp
  | cons c cs ih =>
      intro s hb hdict hcode
      have hc : c ≤ 255 := hb c (by simp)
      have hfind : s.dict.find? (fun e => e.1 == c) = none := by
        rw [List.find?_eq_none]
        intro e he
        have := hdict e he
        simp only [beq_iff_eq]
        omega
      have hne : ¬ c = s.code := by omega
      have hstep : lzdStep s c =
          { dict := (s.code, s.phrase ++ [c]) :: s.dict,
            code := s.code + 1,
            phrase := [c],
            output := s.output ++ [[c]] } := by
        unfold lzdStep
        rw [hfind]
        have hm : c % 65536 = c := Nat.mod_eq_of_lt (by omega)
        simp only [Option.map_none', if_neg hne, hm]
        rfl
      rw [List.foldl_cons, hstep,
        ih _ (fun b hbb => hb b (by simp [hbb]))
          (by
            show ∀ e ∈ (s.code, s.phrase ++ [c]) :: s.dict, 256 ≤ e.1
            intro e he
            rcases List.mem_cons.mp he with he | he
            · subst he; omega
            · exact hdict e he)
          (by show 256 ≤ s.code + 1; omega)]
      simp

/-- What `decompress` actually returns on input that `atob` accepts: the
decoded byte string itself (with the quirk that the empty stream decodes to
the single NUL character, `String.fromCharCode(undefined)`).  The
dictionary-reconstruction branch is unreachable: decoded codes are bytes,
while dictionary codes start at 256. -/
theorem decompress_decoded (l codes : List Nat) (h : b64decode l = some codes) :
    decompress l = if codes = [] then [0] else codes := by
  have hbytes := b64decode_bytes l codes h
  unfold decompress
  rw [h]
  match codes with
  | [] => rfl
  | c0 :: rest =>
      have hrest : ∀ b ∈ rest, b ≤ 255 := fun b hb => hbytes b (by simp [hb])
      simp only [List.headD_cons, List.drop_one, List.tail_cons]
      rw [lzd_literal rest _ hrest (by intro e he; exact absurd he (List.not_mem_nil e))
        (by show (256 : Nat) ≤ 256; omega)]
      simp [flatten_singletons]

/-- Invariant of the `compress` loop after consuming `consumed` characters
(beyond the initial one, `d0`): the current phrase is nonempty; the code
counter starts at 256 and grows by at most one per character; dictionary
entries are multi-character phrases with codes in `[256, code)`; a
multi-character current phrase is always present in the dictionary; and the
output either already contains a dictionary code (in `[256, code)`) or is
exactly the consumed input minus the pending phrase. -/
def LzInv (d0 : Nat) (consumed : List Nat) (s : LzState) : Prop :=
  s.phrase ≠ [] ∧
  256 ≤ s.code ∧
  s.code ≤ 256 + consumed.length ∧
  (∀ e ∈ s.dict, 2 ≤ e.1.length ∧ 256 ≤ e.2 ∧ e.2 < s.code) ∧
  (2 ≤ s.phrase.length → ∃ e ∈ s.dict, e.1 = s.phrase) ∧
  ((∃ b ∈ s.output, 256 ≤ b ∧ b < s.code) ∨ s.output ++ s.phrase = d0 :: consumed)

theorem lzStep_inv (d0 currChar : Nat) (consumed : List Nat) (s : LzState)
    (h : LzInv d0 consumed s) : LzInv d0 (consumed ++ [currChar]) (lzStep s currChar) := by
  obtain ⟨hph, hc1, hc2, hdict, hmem, hout⟩ := h
  unfold lzStep
  dsimp only
  split
  case isTrue hfound =>
    refine ⟨by simp, hc1, by simp; omega, hdict, ?_, ?_⟩
    · intro _
      rcases Option.isSome_iff_exists.mp hfound with ⟨pr, hpr⟩
      have hmem2 := List.mem_of_find?_eq_some hpr
      have hp := List.find?_some hpr
      simp only [beq_iff_eq] at hp
      exact ⟨pr, hmem2, hp⟩
    · rcases hout with ⟨b, hb, hbb⟩ | heq
      · exact Or.inl ⟨b, hb, hbb⟩
      · right
        show s.output ++ (s.phrase ++ [currChar]) = d0 :: (consumed ++ [currChar])
        rw [← List.append_assoc, heq]
        rfl
  case isFalse hnf =>
    have hphlen : 1 ≤ s.phrase.length := List.length_pos.mpr hph
    unfold LzInv
    dsimp only
    refine ⟨by simp, by omega, by simp; omega, ?_, ?_, ?_⟩
    · intro e he
      rcases List.mem_cons.mp he with he | he
      · subst he
        refine ⟨by simp; omega, by omega, by omega⟩
      · have := hdict e he
        exact ⟨this.1, this.2.1, by omega⟩
    · intro hlen2
      simp only [List.length_cons, List.length_nil] at hlen2
      omega
    · by_cases hplen : 2 ≤ s.phrase.length
      · obtain ⟨en, henmem, heneq⟩ := hmem hplen
        have hfind : (s.dict.find? (fun e => e.1 == s.phrase)).isSome :=
          List.find?_isSome.mpr ⟨en, henmem, by simp [heneq]⟩
        rcases Option.isSome_iff_exists.mp hfind with ⟨pr, hpr⟩
        have hprmem := List.mem_of_find?_eq_some hpr
        have hbound := hdict pr hprmem
        have hemit : lzEmit s.dict s.phrase = pr.2 := by
          unfold lzEmit
          rw [if_pos (by omega), hpr]
          rfl
        left
        refine ⟨pr.2, ?_, hbound.2.1, by omega⟩
        show pr.2 ∈ s.output ++ [lzEmit s.dict s.phrase]
        rw [hemit]
        simp
      · obtain ⟨p, hp⟩ : ∃ p, s.phrase = [p] := List.length_eq_one.mp (by omega)
        have hemit : lzEmit s.dict s.phrase = p := by
          unfold lzEmit
          rw [hp]
          simp
        rcases hout with ⟨b, hb, hbb⟩ | heq
        · exact Or.inl ⟨b, by simp [hb], hbb.1, by omega⟩
        · right
          show (s.output ++ [lzEmit s.dict s.phrase]) ++ [currChar] = d0 :: (consumed ++ [currChar])
          rw [hemit, show s.output ++ [p] = s.output ++ s.phrase from by rw [hp], heq]
          rfl

theorem lz_foldl_inv (d0 : Nat) (l : List Nat) :
    ∀ (consumed : List Nat) (s : LzState), LzInv d0 consumed s →
      LzInv d0 (consumed ++ l) (l.foldl lzStep s) := by
  induction l with
  | nil => intro consumed s h; simpa using h
  | cons c cs ih =>
      intro consumed s h
      have h2 := lzStep_inv d0 c consumed s h
      have h3 := ih (consumed ++ [c]) (lzStep s c) h2
      rw [List.append_assoc] at h3
      simpa using h3

/-- When `compress` succeeds, the encoder never actually used the
dictionary: every emission was a single literal character, the transmitted
unit sequence is the input itself truncated to 16 bits per unit, and every
truncated unit fits in a byte.  (Inputs long enough to let the code counter
wrap past 2^16 are excluded; below that bound a dictionary code survives
`String.fromCharCode` as a unit above 255 and `btoa` throws.) -/
theorem compress_ok_chars (data out : List Nat) (hlen : data.length < 65280)
    (h : compress data = .ok out) :
    data ≠ [] ∧ (∀ b ∈ data, b % 65536 ≤ 255) ∧ out = b64encode (data.map (· % 65536)) := by
  match data with
  | [] => exact absurd h (by simp [compress])
  | d0 :: rest =>
      replace h : (if (compressUnits d0 rest).all (· ≤ 255) then
          Except.ok (b64encode (compressUnits d0 rest))
          else Except.error JsError.invalidCharacter) = Except.ok out := h
      split at h
      case isFalse => exact absurd h (by simp)
      case isTrue hall =>
        simp only [Except.ok.injEq] at h
        simp only [List.all_eq_true, decide_eq_true_eq] at hall
        have hcu : compressUnits d0 rest =
            ((rest.foldl lzStep { dict := [], output := [], phrase := [d0], code := 256 }).output ++
              [lzEmit
                (rest.foldl lzStep { dict := [], output := [], phrase := [d0], code := 256 }).dict
                (rest.foldl lzStep
                  { dict := [], output := [], phrase := [d0], code := 256 }).phrase]).map
              (· % 65536) := rfl
        have hinv0 : LzInv d0 [] { dict := [], output := [], phrase := [d0], code := 256 } := by
          unfold LzInv
          dsimp only
          refine ⟨by simp, by omega, by omega, ?_, ?_, Or.inr rfl⟩
          · intro e he
            exact absurd he (List.not_mem_nil e)
          · intro h2
            simp only [List.length_cons, List.length_nil] at h2
            omega
        have hinv := lz_foldl_inv d0 rest [] _ hinv0
        rw [List.nil_append] at hinv
        obtain ⟨hph, hc1, hc2, hdict, hmem, hout⟩ := hinv
        have hrlen : rest.length < 65279 := by
          simp only [List.length_cons] at hlen
          omega
        rcases hout with ⟨b, hbmem, hb1, hb2⟩ | hgood
        · exfalso
          have hbu : b % 65536 ∈ compressUnits d0 rest := by
            rw [hcu]
            apply List.mem_map_of_mem
            exact List.mem_append_left _ hbmem
          have hble := hall _ hbu
          have hblt : b < 65536 := by omega
          rw [Nat.mod_eq_of_lt hblt] at hble
          omega
        · by_cases hplen : 2 ≤ (rest.foldl lzStep
              { dict := [], output := [], phrase := [d0], code := 256 }).phrase.length
          · exfalso
            obtain ⟨en, henmem, heneq⟩ := hmem hplen
            have hfind : ((rest.foldl lzStep
                { dict := [], output := [], phrase := [d0], code := 256 }).dict.find?
                  (fun e => e.1 == (rest.foldl lzStep
                    { dict := [], output := [], phrase := [d0], code := 256 }).phrase)).isSome :=
              List.find?_isSome.mpr ⟨en, henmem, by simp [heneq]⟩
            rcases Option.isSome_iff_exists.mp hfind with ⟨pr, hpr⟩
            have hprmem := List.mem_of_find?_eq_some hpr
            have hbound := hdict pr hprmem
            have hemit : lzEmit (rest.foldl lzStep
                { dict := [], output := [], phrase := [d0], code := 256 }).dict
                (rest.foldl lzStep
                  { dict := [], output := [], phrase := [d0], code := 256 }).phrase = pr.2 := by
              unfold lzEmit
              rw [if_pos (by omega), hpr]
              rfl
            have hbu : pr.2 % 65536 ∈ compressUnits d0 rest := by
              rw [hcu]
              apply List.mem_map_of_mem
              rw [← hemit]
              simp
            have hble := hall _ hbu
            have hblt : pr.2 < 65536 := by omega
            rw [Nat.mod_eq_of_lt hblt] at hble
            omega
          · obtain ⟨p, hp⟩ : ∃ p, (rest.foldl lzStep
                { dict := [], output := [], phrase := [d0], code := 256 }).phrase = [p] :=
              List.length_eq_one.mp (by have := List.length_pos.mpr hph; omega)
            have hemit : lzEmit (rest.foldl lzStep
                { dict := [], output := [], phrase := [d0], code := 256 }).dict
                (rest.foldl lzStep
                  { dict := [], output := [], phrase := [d0], code := 256 }).phrase = p := by
              unfold lzEmit
              rw [hp]
              simp
            rw [hp] at hgood
            have hunits : compressUnits d0 rest = (d0 :: rest).map (· % 65536) := by
              rw [hcu, hemit, hgood]
            refine ⟨by simp, ?_, ?_⟩
            · intro b hbmem
              have : b % 65536 ∈ compressUnits d0 rest := by
                rw [hunits]
                exact List.mem_map_of_mem _ hbmem
              exact hall _ this
            · rw [← h, hunits]

/-- On a well-formed string (code units below 2^16), a successful `compress`
transmitted the input verbatim: the compressed form is just the base64
encoding of the input, which is therefore made of bytes. -/
theorem compress_ok_bytes (data out : List Nat) (hlen : data.length < 65280)
    (hwf : ∀ u ∈ data, u < 65536) (h : compress data = .ok out) :
    data ≠ [] ∧ (∀ b ∈ data, b ≤ 255) ∧ out = b64encode data := by
  obtain ⟨hne, hb, hout⟩ := compress_ok_chars data out hlen h
  have hmap : ∀ l : List Nat, (∀ u ∈ l, u < 65536) → l.map (· % 65536) = l := by
    intro l hl
    induction l with
    | nil => rfl
    | cons x xs ih =>
        simp only [List.map_cons, Nat.mod_eq_of_lt (hl x (by simp)), List.cons.injEq, true_and]
        exact ih (fun u hu => hl u (by simp [hu]))
  refine ⟨hne, ?_, by rw [hout, hmap data hwf]⟩
  intro b hbm
  have h1 := hb b hbm
  rw [Nat.mod_eq_of_lt (hwf b hbm)] at h1
  exact h1

/-- Core cipher-layer round trip: a successful `encrypt` yields an envelope
that any ready engine holding the same key decrypts back to the serialized
plaintext, with the `JSON.parse` fallback applied at the end. -/
theorem decrypt_encrypt_core (P : CryptoProvider) (st st2 std : EngineState) (v : JSValue)
    (c : Bool) (e : List Nat)
    (hinit : st.isInitialized = true)
    (hdinit : std.isInitialized = true)
    (hkey : std.masterKey = st.masterKey)
    (hlen : (jsToString v).length < 65280)
    (hwf : ∀ u ∈ jsToString v, u < 65536)
    (henc : encrypt P st v c = (.ok e, st2)) :
    decrypt P std e c = (jsonFallback (jsToString v), std) := by
  unfold encrypt at henc
  rw [hinit] at henc
  simp only [if_true] at henc
  have hivb : ∀ b ∈ (generateIV st).1, b ≤ 255 := randBytes_bytes 12 st
  have hivlen : (generateIV st).1.length = 12 := randBytes_length 12 st
  cases c with
  | false =>
      injection henc with h1 h2
      injection h1 with h1
      subst h1
      have htb := P.textEncode_bytes (jsToString v)
      have hgb := P.gcmEncrypt_bytes (st.masterKey.getD 0) (generateIV st).1
        (P.textEncode (jsToString v)) htb
      have hcb : ∀ b ∈ (generateIV st).1 ++
          P.gcmEncrypt (st.masterKey.getD 0) (generateIV st).1 (P.textEncode (jsToString v)),
          b ≤ 255 := by
        intro b hb
        rcases List.mem_append.mp hb with hb | hb
        · exact hivb b hb
        · exact hgb b hb
      unfold decrypt
      rw [hdinit]
      simp only [if_true]
      rw [b64decode_b64encode _ hcb]
      dsimp only
      rw [show (12 : Nat) = (generateIV st).1.length from hivlen.symm,
        List.take_left, List.drop_left, hkey, P.gcmDecrypt_gcmEncrypt]
      dsimp only
      rw [P.textDecode_textEncode _ hwf]
      rfl
  | true =>
      split at henc
      case h_1 err heq => exact absurd (congrArg Prod.fst henc) (by simp)
      case h_2 processed heq =>
        obtain ⟨hne, hdb, hpe⟩ := compress_ok_bytes (jsToString v) processed hlen hwf heq
        injection henc with h1 h2
        injection h1 with h1
        subst h1
        have htb := P.textEncode_bytes processed
        have hgb := P.gcmEncrypt_bytes (st.masterKey.getD 0) (generateIV st).1
          (P.textEncode processed) htb
        have hcb : ∀ b ∈ (generateIV st).1 ++
            P.gcmEncrypt (st.masterKey.getD 0) (generateIV st).1 (P.textEncode processed),
            b ≤ 255 := by
          intro b hb
          rcases List.mem_append.mp hb with hb | hb
          · exact hivb b hb
          · exact hgb b hb
        have hpwf : ∀ u ∈ processed, u < 65536 := by
          intro u hu
          rw [hpe] at hu
          have := b64encode_le_122 (jsToString v) u hu
          omega
        unfold decrypt
        rw [hdinit]
        simp only [if_true]
        rw [b64decode_b64encode _ hcb]
        dsimp only
        rw [show (12 : Nat) = (generateIV st).1.length from hivlen.symm,
          List.take_left, List.drop_left, hkey, P.gcmDecrypt_gcmEncrypt]
        dsimp only
        have hdec : decompress processed = jsToString v := by
          rw [hpe, decompress_decoded (b64encode (jsToString v)) (jsToString v)
            (b64decode_b64encode _ hdb), if_neg hne]
        rw [P.textDecode_textEncode _ hpwf, hdec]

/-- A successful `encrypt` advances the random stream by the 12 IV bytes and
changes nothing else in the engine state. -/
theorem encrypt_ok_state (P : CryptoProvider) (st : EngineState) (v : JSValue) (c : Bool)
    (e : List Nat) (st2 : EngineState) (henc : encrypt P st v c = (.ok e, st2)) :
    st2 = { st with rngPos := st.rngPos + 12 } := by
  unfold encrypt at henc
  split at henc
  case isFalse hinit =>
      injection henc with ha hb
      injection ha
  case isTrue hinit =>
      split at henc
      case h_1 err heq =>
          injection henc with ha hb
          injection ha
      case h_2 processed heq =>
          injection henc with ha hb
          rw [← hb]
          rfl

/-- Dissection of a successful `encrypt`: the processed (possibly
compressed) plaintext, and the envelope as the base64 encoding of the fresh
IV followed by the GCM output. -/
theorem encrypt_ok_spec (P : CryptoProvider) (st : EngineState) (v : JSValue) (c : Bool)
    (e : List Nat) (st2 : EngineState) (hinit : st.isInitialized = true)
    (henc : encrypt P st v c = (.ok e, st2)) :
    ∃ processed,
      (if c then compress (jsToString v) else Except.ok (jsToString v)) = .ok processed ∧
      e = b64encode ((generateIV st).1 ++
        P.gcmEncrypt (st.masterKey.getD 0) (generateIV st).1 (P.textEncode processed)) ∧
      st2 = (generateIV st).2 := by
  unfold encrypt at henc
  rw [hinit] at henc
  simp only [if_true] at henc
  split at henc
  case h_1 err heq =>
      injection henc with ha hb
      injection ha
  case h_2 processed heq =>
      injection henc with ha hb
      injection ha with ha
      exact ⟨processed, heq, ha.symm, hb.symm⟩

/-- The `JSON.parse` fallback never throws: it always returns a value. -/
theorem jsonFallback_ok (s : List Nat) : ∃ w, jsonFallback s = .ok w := by
  unfold jsonFallback
  cases jsonParse s with
  | none => exact ⟨_, rfl⟩
  | some w => exact ⟨w, rfl⟩

theorem getItem_setItem (k v : List Nat) (s : Storage) : getItem k (setItem k v s) = some v := by
  unfold getItem setItem
  rw [List.find?_cons_of_pos _ (by simp)]
  rfl

/-! ## The claims -/

/-- C9: calling `encrypt` or `decrypt` before a successful `initialize`
fails with the not-initialized error and leaves the engine state (including
the random stream position, so no cryptographic operation was performed)
unchanged. -/
theorem c9_not_initialized (P : CryptoProvider) (st : EngineState) (v : JSValue)
    (d : List Nat) (c1 c2 : Bool) (h : st.isInitialized = false) :
    encrypt P st v c1 = (.error .notInitialized, st) ∧
    decrypt P st d c2 = (.error .notInitialized, st) := by
  constructor
  · unfold encrypt
    rw [h]
    rfl
  · unfold decrypt
    rw [h]
    rfl

theorem c9_witness :
    freshState.isInitialized = false ∧
    encrypt refProvider freshState (.bool true) true = (.error .notInitialized, freshState) ∧
    decrypt refProvider freshState (strCodes "abc") true =
      (.error .notInitialized, freshState) :=
  ⟨rfl,
   (c9_not_initialized refProvider freshState (.bool true) (strCodes "abc") true true rfl).1,
   (c9_not_initialized refProvider freshState (.bool true) (strCodes "abc") true true rfl).2⟩

/-- C10: on an initialized engine, encrypting a value whose serialized form
is the empty string with compression enabled throws: `compress` reads
`data[0]` (which is `undefined`) and fails on `phrase.length`, so no
envelope is produced and the state is unchanged. -/
theorem c10_empty_input_throws (P : CryptoProvider) (st : EngineState)
    (v : JSValue) (h : st.isInitialized = true) (hs : jsToString v = []) :
    encrypt P st v true = (.error .typeError, st) := by
  unfold encrypt
  rw [h, hs]
  rfl

theorem c10_witness :
    testState.isInitialized = true ∧ jsToString (JSValue.str []) = [] ∧
    encrypt refProvider testState (.str []) true = (.error .typeError, testState) :=
  ⟨rfl, rfl, c10_empty_input_throws refProvider testState (.str []) rfl rfl⟩

/-- C2: the compression round-trip fails on the 8-bit string "aaa": the
encoder emits dictionary code 256 for the repeated phrase and `btoa` throws
`InvalidCharacterError` on it, so `compress` raises instead of returning a
code stream — contradicting both the claimed invariant and the function's
own documentation. -/
theorem c2_compress_throws_on_aaa :
    compress (strCodes "aaa") = .error .invalidCharacter := rfl

/-- C4 counterexample: on malformed compressed input (here a string outside
the base64 alphabet, so `atob` throws), `decompress` does not raise a decode
error — its catch-all handler returns the input string unchanged. -/
theorem c4_counterexample :
    b64decode (strCodes "!!!!") = none ∧ decompress (strCodes "!!!!") = strCodes "!!!!" :=
  ⟨rfl, rfl⟩

/-- C4 amended: `decompress` never raises.  If `atob` rejects the input the
catch handler returns the input unchanged; if `atob` accepts it the decoded
codes are all bytes, the dictionary branch (codes at or above 256) is
unreachable, and the decoded byte string itself is returned (the empty
stream yielding the single NUL character). -/
theorem c4_decompress_never_raises (l : List Nat) :
    (b64decode l = none → decompress l = l) ∧
    (∀ codes, b64decode l = some codes →
      decompress l = (if codes = [] then [0] else codes)) := by
  constructor
  · intro h
    unfold decompress
    rw [h]
  · intro codes h
    exact decompress_decoded l codes h

theorem c4_witness :
    (b64decode (strCodes "****") = none ∧ decompress (strCodes "****") = strCodes "****") ∧
    (b64decode (strCodes "aGk=") = some [104, 105] ∧
      decompress (strCodes "aGk=") = [104, 105]) := by
  refine ⟨⟨rfl, (c4_decompress_never_raises (strCodes "****")).1 rfl⟩, rfl, ?_⟩
  have h := (c4_decompress_never_raises (strCodes "aGk=")).2 [104, 105] rfl
  simpa using h

/-- A ready engine whose store holds, under `sec_profile`, a forged envelope
whose authentication tag cannot verify. -/
def corruptState : EngineState :=
  { isInitialized := true, masterKey := some 0,
    storage := [(secItemKey (strCodes "profile"), b64encode (List.replicate 30 1))],
    rng := fun _ => 0, rngPos := 0 }

/-- C3 counterexample: the record stored under `sec_profile` fails
decryption (authentication error), yet `secureRetrieve` returns null — the
very same result as for the never-stored key `missing` — instead of
propagating a retrieval error. -/
theorem c3_counterexample :
    (decrypt refProvider corruptState (b64encode (List.replicate 30 1)) true).1 =
      .error .operationError ∧
    (secureRetrieve refProvider corruptState (strCodes "profile")).1 = .null ∧
    (secureRetrieve refProvider corruptState (strCodes "missing")).1 = .null :=
  ⟨rfl, rfl, rfl⟩

/-- C3 amended: whenever the stored envelope for a key fails `decrypt`, the
`secureRetrieve` catch handler swallows the error and returns null, exactly
as for a key that was never stored — the two cases are indistinguishable. -/
theorem c3_null_on_failure (P : CryptoProvider) (st st2 : EngineState)
    (k : List Nat) (err : JsError) (c0 : Nat) (cs : List Nat)
    (hget : getItem (secItemKey k) st.storage = some (c0 :: cs))
    (hdec : decrypt P st (c0 :: cs) true = (.error err, st2)) :
    secureRetrieve P st k = (.null, st2) := by
  unfold secureRetrieve
  rw [hget]
  dsimp only
  rw [hdec]

theorem c3_witness :
    getItem (secItemKey (strCodes "profile")) corruptState.storage =
      some (b64encode (List.replicate 30 1)) ∧
    secureRetrieve refProvider corruptState (strCodes "profile") = (.null, corruptState) :=
  ⟨rfl, c3_null_on_failure refProvider corruptState corruptState (strCodes "profile")
    .operationError _ _ rfl rfl⟩

/-- Modelled from the spec: the claimed stored-record format — a JSON object
with an `envelope` field holding the base64 envelope string and a separate
boolean `compressed` field — serialized to a string as a storage layer would
persist it. -/
def specStoredRecord (env : List Nat) (flag : Bool) : List Nat :=
  [123] ++ quoteStr (strCodes "envelope") ++ [58] ++ quoteStr env ++ [44] ++
    quoteStr (strCodes "compressed") ++ [58] ++
    (if flag then strCodes "true" else strCodes "false") ++ [125]

theorem specStoredRecord_head (env : List Nat) (flag : Bool) :
    (specStoredRecord env flag).head? = some 123 := rfl

/-- C5 counterexample: after a successful `secureStore`, the persisted value
is not of the claimed record shape for any envelope and flag — it starts
with a base64 character, not with an object brace: only the bare envelope
string is stored and no compressed flag travels with it. -/
theorem c5_counterexample :
    (secureStore refProvider testState (strCodes "k") (.bool true)).1 = true ∧
    ¬ ∃ env flag, getItem (secItemKey (strCodes "k"))
        (secureStore refProvider testState (strCodes "k") (.bool true)).2.storage =
      some (specStoredRecord env flag) := by
  constructor
  · rfl
  · rintro ⟨env, flag, h⟩
    have h1 : (getItem (secItemKey (strCodes "k"))
        (secureStore refProvider testState (strCodes "k") (.bool true)).2.storage).map
          List.head? = some (some 123) := by
      rw [h, Option.map_some', specStoredRecord_head]
    have h2 : (getItem (secItemKey (strCodes "k"))
        (secureStore refProvider testState (strCodes "k") (.bool true)).2.storage).map
          List.head? = some (some 65) := rfl
    rw [h1] at h2
    exact absurd h2 (by decide)

/-- C5 amended: a successful `secureStore` persists exactly the bare
envelope string under `sec_ + key`; the compression flag is not stored —
compression is unconditionally enabled on store and decompression
unconditionally enabled on retrieve. -/
theorem c5_bare_envelope (P : CryptoProvider) (st st2 : EngineState)
    (k : List Nat) (v : JSValue) (e : List Nat)
    (henc : encrypt P st v true = (.ok e, st2)) :
    secureStore P st k v =
      (true, { st2 with storage := setItem (secItemKey k) e st2.storage }) := by
  unfold secureStore
  rw [henc]

theorem c5_witness :
    ∃ e st2, encrypt refProvider testState (.bool true) true = (.ok e, st2) ∧
      secureStore refProvider testState (strCodes "k") (.bool true) =
        (true, { st2 with storage := setItem (secItemKey (strCodes "k")) e st2.storage }) := by
  obtain ⟨e, st2, he⟩ :
      ∃ e st2, encrypt refProvider testState (.bool true) true = (.ok e, st2) := ⟨_, _, rfl⟩
  exact ⟨e, st2, he,
    c5_bare_envelope refProvider testState st2 (strCodes "k") (.bool true) e he⟩

/-- C7: `initialize` (modelled as `initModule`) never regenerates an
existing (nonempty) persisted salt — the storage is left untouched and the
key is derived from the stored salt — while on an installation with no
persisted salt it draws 32 fresh random bytes, persists their base64
encoding under `enc_salt`, and derives the key from that same persisted
value. -/
theorem c7_salt_lifecycle (P : CryptoProvider) (st : EngineState) (pw : List Nat) :
    (∀ c0 cs, getItem encSaltKey st.storage = some (c0 :: cs) →
      initModule P st pw = (true, { st with
        masterKey := some (P.deriveKey pw (c0 :: cs)),
        isInitialized := true })) ∧
    (getItem encSaltKey st.storage = none →
      initModule P st pw = (true,
        { isInitialized := true,
          masterKey := some (P.deriveKey pw (b64encode (randBytes 32 st).1)),
          storage := setItem encSaltKey (b64encode (randBytes 32 st).1) st.storage,
          rng := st.rng,
          rngPos := st.rngPos + 32 }) ∧
      getItem encSaltKey (setItem encSaltKey (b64encode (randBytes 32 st).1) st.storage) =
        some (b64encode (randBytes 32 st).1) ∧
      (randBytes 32 st).1.length = 32) := by
  constructor
  · intro c0 cs hget
    unfold initModule
    rw [hget]
  · intro hget
    unfold initModule
    rw [hget]
    exact ⟨rfl, getItem_setItem _ _ _, randBytes_length 32 st⟩

/-- A fresh engine over storage already holding a persisted salt `AAAA`. -/
def saltedState : EngineState :=
  { isInitialized := false, masterKey := none,
    storage := [(encSaltKey, strCodes "AAAA")],
    rng := fun _ => 0, rngPos := 0 }

theorem c7_witness :
    getItem encSaltKey saltedState.storage = some (65 :: [65, 65, 65]) ∧
    initModule refProvider saltedState (strCodes "pw") = (true, { saltedState with
      masterKey := some (refProvider.deriveKey (strCodes "pw") (65 :: [65, 65, 65])),
      isInitialized := true }) ∧
    getItem encSaltKey freshState.storage = none ∧
    getItem encSaltKey (initModule refProvider freshState (strCodes "pw")).2.storage =
      some (b64encode (randBytes 32 freshState).1) ∧
    (randBytes 32 freshState).1.length = 32 := by
  refine ⟨rfl, ?_, rfl, ?_, ?_⟩
  · exact (c7_salt_lifecycle refProvider saltedState (strCodes "pw")).1 65 [65, 65, 65] rfl
  · have hB := (c7_salt_lifecycle refProvider freshState (strCodes "pw")).2 rfl
    rw [hB.1]
    exact hB.2.1
  · exact ((c7_salt_lifecycle refProvider freshState (strCodes "pw")).2 rfl).2.2

/-- The uncompressed store-and-load round trip of the claim C1, evaluated at
the concrete string value `123`. -/
def roundTrip123 : Except JsError JSValue :=
  match encrypt refProvider testState (.str (strCodes "123")) false with
  | (.ok e, st2) => (decrypt refProvider st2 e false).1
  | (.error err, _) => .error err

/-- C1 counterexample: on an initialized engine, the value `"123"` (a
JSON-serializable string) does not survive the round trip: `decrypt`'s
`JSON.parse` fallback parses the recovered text as the number 123, so
`decrypt(encrypt("123", false), false)` returns a number, not the original
string. -/
theorem c1_counterexample :
    roundTrip123 = .ok (.num 123) ∧ JSValue.num 123 ≠ JSValue.str (strCodes "123") := by
  constructor
  · rfl
  · intro h
    exact JSValue.noConfusion h

/-- C1 amended: the round trip `decrypt(encrypt(v, c), c) = v` holds for
every JSON-serializable `v` whose serialized form is a well-formed UTF-16
string shorter than 65280 units, provided `encrypt` succeeds (with `c` set,
the serialized form must compress without the `btoa` overflow of C2), and
provided the serialized form parses back to `v` itself under the
`JSON.parse`-with-raw-string-fallback rule (a string value that is itself
valid JSON, such as `"123"`, comes back as the parsed value instead). -/
theorem c1_roundtrip_amended (P : CryptoProvider) (st st2 : EngineState) (v : JSValue)
    (c : Bool) (e : List Nat)
    (hinit : st.isInitialized = true)
    (hlen : (jsToString v).length < 65280)
    (hwf : ∀ u ∈ jsToString v, u < 65536)
    (hparse : jsonFallback (jsToString v) = .ok v)
    (henc : encrypt P st v c = (.ok e, st2)) :
    decrypt P st2 e c = (.ok v, st2) := by
  have hstate := encrypt_ok_state P st v c e st2 henc
  have hini2 : st2.isInitialized = true := by rw [hstate]; exact hinit
  have hkey : st2.masterKey = st.masterKey := by rw [hstate]
  rw [decrypt_encrypt_core P st st2 st2 v c e hinit hini2 hkey hlen hwf henc, hparse]

theorem c1_witness :
    testState.isInitialized = true ∧
    ∃ e st2, encrypt refProvider testState (.str (strCodes "hi")) true = (.ok e, st2) ∧
      decrypt refProvider st2 e true = (.ok (.str (strCodes "hi")), st2) := by
  refine ⟨rfl, ?_⟩
  obtain ⟨e, st2, he⟩ :
      ∃ e st2, encrypt refProvider testState (.str (strCodes "hi")) true = (.ok e, st2) :=
    ⟨_, _, rfl⟩
  exact ⟨e, st2, he, c1_roundtrip_amended refProvider testState st2 (.str (strCodes "hi"))
    true e rfl (by decide) (by decide) rfl he⟩

theorem append_bytes_le (l1 l2 : List Nat) (h1 : ∀ b ∈ l1, b ≤ 255)
    (h2 : ∀ b ∈ l2, b ≤ 255) : ∀ b ∈ l1 ++ l2, b ≤ 255 := by
  intro b hb
  rcases List.mem_append.mp hb with hb | hb
  · exact h1 b hb
  · exact h2 b hb

theorem jsonFallback_pair_ok (s : List Nat) (st : EngineState) :
    ∃ res, ((jsonFallback s, st) : Except JsError JSValue × EngineState) = (.ok res, st) := by
  obtain ⟨w, hw⟩ := jsonFallback_ok s
  exact ⟨w, by rw [hw]⟩

/-- `decrypt` succeeds (state untouched) on any envelope whose base64
decoding and tag verification go through: everything after the AEAD step is
total. -/
theorem decrypt_ok_of_gcm (P : CryptoProvider) (std : EngineState) (e combined pb : List Nat)
    (c : Bool)
    (hinit : std.isInitialized = true)
    (hb : b64decode e = some combined)
    (hg : P.gcmDecrypt (std.masterKey.getD 0) (combined.take 12) (combined.drop 12) = some pb) :
    ∃ res, decrypt P std e c = (.ok res, std) := by
  unfold decrypt
  rw [hinit]
  simp only [if_true]
  rw [hb]
  dsimp only
  rw [hg]
  exact jsonFallback_pair_ok _ _

/-- C6: every envelope a successful `encrypt` produces decodes (base64) to
exactly a 12-byte nonce, then the variable-length ciphertext, then a
16-byte tag, in that order with no length fields — the decoded buffer is
literally the concatenation — and `decrypt` splits the buffer at the fixed
12-byte offset, after which tag verification and the rest of decryption
succeed. -/
theorem c6_envelope_format (P : CryptoProvider) (st st2 : EngineState) (v : JSValue)
    (c : Bool) (e : List Nat)
    (hinit : st.isInitialized = true)
    (henc : encrypt P st v c = (.ok e, st2)) :
    ∃ iv ct tag processed,
      b64decode e = some (iv ++ (ct ++ tag)) ∧
      iv.length = 12 ∧
      tag.length = 16 ∧
      (iv ++ (ct ++ tag)).take 12 = iv ∧
      (iv ++ (ct ++ tag)).drop 12 = ct ++ tag ∧
      P.gcmDecrypt (st.masterKey.getD 0) iv (ct ++ tag) = some (P.textEncode processed) ∧
      ∃ res, decrypt P st2 e c = (.ok res, st2) := by
  obtain ⟨processed, hproc, he, hst2⟩ := encrypt_ok_spec P st v c e st2 hinit henc
  have hivlen : (generateIV st).1.length = 12 := randBytes_length 12 st
  have hivb : ∀ b ∈ (generateIV st).1, b ≤ 255 := randBytes_bytes 12 st
  have hgb := P.gcmEncrypt_bytes (st.masterKey.getD 0) (generateIV st).1
    (P.textEncode processed) (P.textEncode_bytes processed)
  have hglen := P.gcmEncrypt_length (st.masterKey.getD 0) (generateIV st).1
    (P.textEncode processed)
  have hcomb := append_bytes_le _ _ hivb hgb
  refine ⟨(generateIV st).1,
    (P.gcmEncrypt (st.masterKey.getD 0) (generateIV st).1 (P.textEncode processed)).take
      ((P.gcmEncrypt (st.masterKey.getD 0) (generateIV st).1
        (P.textEncode processed)).length - 16),
    (P.gcmEncrypt (st.masterKey.getD 0) (generateIV st).1 (P.textEncode processed)).drop
      ((P.gcmEncrypt (st.masterKey.getD 0) (generateIV st).1
        (P.textEncode processed)).length - 16),
    processed, ?_, hivlen, ?_, ?_, ?_, ?_, ?_⟩
  · rw [List.take_append_drop, he]
    exact b64decode_b64encode _ hcomb
  · rw [List.length_drop]
    omega
  · rw [List.take_append_drop,
      show (12 : Nat) = (generateIV st).1.length from hivlen.symm, List.take_left]
  · rw [List.take_append_drop,
      show (12 : Nat) = (generateIV st).1.length from hivlen.symm, List.drop_left]
  · rw [List.take_append_drop]
    exact P.gcmDecrypt_gcmEncrypt _ _ _
  · have hkey : st2.masterKey = st.masterKey := by rw [hst2]; rfl
    have hini2 : st2.isInitialized = true := by rw [hst2]; exact hinit
    apply decrypt_ok_of_gcm P st2 e ((generateIV st).1 ++
      P.gcmEncrypt (st.masterKey.getD 0) (generateIV st).1 (P.textEncode processed))
      (P.textEncode processed) c hini2
    · rw [he]
      exact b64decode_b64encode _ hcomb
    · rw [show (12 : Nat) = (generateIV st).1.length from hivlen.symm, List.take_left,
        List.drop_left, hkey]
      exact P.gcmDecrypt_gcmEncrypt _ _ _

theorem c6_witness :
    testState.isInitialized = true ∧
    ∃ e st2, encrypt refProvider testState (.bool true) false = (.ok e, st2) ∧
      ∃ iv ct tag processed,
        b64decode e = some (iv ++ (ct ++ tag)) ∧
        iv.length = 12 ∧
        tag.length = 16 ∧
        (iv ++ (ct ++ tag)).take 12 = iv ∧
        (iv ++ (ct ++ tag)).drop 12 = ct ++ tag ∧
        refProvider.gcmDecrypt (testState.masterKey.getD 0) iv (ct ++ tag) =
          some (refProvider.textEncode processed) ∧
        ∃ res, decrypt refProvider st2 e false = (.ok res, st2) := by
  refine ⟨rfl, ?_⟩
  obtain ⟨e, st2, he⟩ :
      ∃ e st2, encrypt refProvider testState (.bool true) false = (.ok e, st2) := ⟨_, _, rfl⟩
  exact ⟨e, st2, he, c6_envelope_format refProvider testState st2 (.bool true) false e rfl he⟩

theorem randBytes_get (n : Nat) (st : EngineState) (i : Nat) (hi : i < n) :
    ((randBytes n st).1)[i]? = some (st.rng (st.rngPos + i) % 256) := by
  simp [randBytes, hi]

/-- C8: two successive `encrypt` calls for the same value and flag draw
their 12-byte nonces from disjoint positions of the random stream; whenever
those two draws differ anywhere (the content of the platform's
randomness guarantee), the envelopes differ, and each envelope decrypts
back to the original value under the conditions of C1. -/
theorem c8_nonce_uniqueness (P : CryptoProvider) (st st1 st2 : EngineState) (v : JSValue)
    (c : Bool) (e1 e2 : List Nat)
    (hinit : st.isInitialized = true)
    (hlen : (jsToString v).length < 65280)
    (hwf : ∀ u ∈ jsToString v, u < 65536)
    (hparse : jsonFallback (jsToString v) = .ok v)
    (h1 : encrypt P st v c = (.ok e1, st1))
    (h2 : encrypt P st1 v c = (.ok e2, st2))
    (hrng : ∃ i < 12, st.rng (st.rngPos + i) % 256 ≠ st.rng (st.rngPos + 12 + i) % 256) :
    e1 ≠ e2 ∧ decrypt P st2 e1 c = (.ok v, st2) ∧ decrypt P st2 e2 c = (.ok v, st2) := by
  have hst1 := encrypt_ok_state P st v c e1 st1 h1
  have hst2 := encrypt_ok_state P st1 v c e2 st2 h2
  have hinit1 : st1.isInitialized = true := by rw [hst1]; exact hinit
  have hinit2 : st2.isInitialized = true := by rw [hst2]; exact hinit1
  have hkey1 : st1.masterKey = st.masterKey := by rw [hst1]
  have hkey2 : st2.masterKey = st.masterKey := by rw [hst2, hst1]
  obtain ⟨p1, hp1, he1, _⟩ := encrypt_ok_spec P st v c e1 st1 hinit h1
  obtain ⟨p2, hp2, he2, _⟩ := encrypt_ok_spec P st1 v c e2 st2 hinit1 h2
  refine ⟨?_, ?_, ?_⟩
  · intro heq
    have hivb1 : ∀ b ∈ (generateIV st).1, b ≤ 255 := randBytes_bytes 12 st
    have hivb2 : ∀ b ∈ (generateIV st1).1, b ≤ 255 := randBytes_bytes 12 st1
    have hgb1 := P.gcmEncrypt_bytes (st.masterKey.getD 0) (generateIV st).1
      (P.textEncode p1) (P.textEncode_bytes p1)
    have hgb2 := P.gcmEncrypt_bytes (st1.masterKey.getD 0) (generateIV st1).1
      (P.textEncode p2) (P.textEncode_bytes p2)
    rw [he1, he2] at heq
    have hab := b64encode_inj _ _ (append_bytes_le _ _ hivb1 hgb1)
      (append_bytes_le _ _ hivb2 hgb2) heq
    have hlen12 : (generateIV st).1.length = (generateIV st1).1.length :=
      (randBytes_length 12 st).trans (randBytes_length 12 st1).symm
    have hiv := (List.append_inj hab hlen12).1
    obtain ⟨i, hi, hne⟩ := hrng
    have g1 : ((generateIV st).1)[i]? = some (st.rng (st.rngPos + i) % 256) :=
      randBytes_get 12 st i hi
    have g2 : ((generateIV st1).1)[i]? = some (st.rng (st.rngPos + 12 + i) % 256) := by
      rw [hst1]
      exact randBytes_get 12 _ i hi
    rw [hiv, g2] at g1
    exact hne (Option.some.inj g1).symm
  · rw [decrypt_encrypt_core P st st1 st2 v c e1 hinit hinit2 hkey2 hlen hwf h1, hparse]
  · have h2core := decrypt_encrypt_core P st1 st2 st2 v c e2 hinit1 hinit2
      (by rw [hst2]) hlen hwf h2
    rw [h2core, hparse]

theorem c8_witness :
    ∃ e1 e2 st2,
      encrypt refProvider countState (.str (strCodes "hi")) true =
        (.ok e1, { countState with rngPos := 12 }) ∧
      encrypt refProvider { countState with rngPos := 12 } (.str (strCodes "hi")) true =
        (.ok e2, st2) ∧
      e1 ≠ e2 ∧
      decrypt refProvider st2 e1 true = (.ok (.str (strCodes "hi")), st2) ∧
      decrypt refProvider st2 e2 true = (.ok (.str (strCodes "hi")), st2) := by
  obtain ⟨e1, h1⟩ :
      ∃ e1, encrypt refProvider countState (.str (strCodes "hi")) true =
        (.ok e1, { countState with rngPos := 12 }) := ⟨_, rfl⟩
  obtain ⟨e2, st2, h2⟩ :
      ∃ e2 st2, encrypt refProvider { countState with rngPos := 12 }
        (.str (strCodes "hi")) true = (.ok e2, st2) := ⟨_, _, rfl⟩
  have h := c8_nonce_uniqueness refProvider countState { countState with rngPos := 12 } st2
    (.str (strCodes "hi")) true e1 e2 rfl (by decide) (by decide) rfl h1 h2
    ⟨0, by omega, by decide⟩
  exact ⟨e1, e2, st2, h1, h2, h.1, h.2.1, h.2.2⟩

/-- The double-encryption scenario of claim C8 evaluated at the concrete
string value `123`: encrypt it twice in a row and decrypt the second
envelope. -/
def c8RoundTrip123 : Except JsError JSValue :=
  match encrypt refProvider countState (.str (strCodes "123")) false with
  | (.ok _, st1) =>
      match encrypt refProvider st1 (.str (strCodes "123")) false with
      | (.ok e2, st2) => (decrypt refProvider st2 e2 false).1
      | (.error err, _) => .error err
  | (.error err, _) => .error err

/-- C8 counterexample: for the value `"123"`, the second of two successive
envelopes decrypts to the number 123, not back to the original string — so
the claim's universally quantified clause that both envelopes decrypt back
to `v` fails (for the same reason as C1). -/
theorem c8_counterexample :
    c8RoundTrip123 = .ok (.num 123) ∧ JSValue.num 123 ≠ JSValue.str (strCodes "123") :=
  ⟨rfl, fun h => JSValue.noConfusion h⟩
